import Mathlib

/-!
Verification of the Obsidian-Rust-Interface note library against its design
specification.  The development shallowly embeds the library:

* frontmatter splitting, a model of `NoteReference::parts` and
  `NoteReference::metadata` from `lib.rs`, over a model of Rust `str::lines`;
* the extraction strategies `Branded` and `TypeAndKey` from `joining.rs`,
  over a model of `serde_yaml::Mapping`;
* the vault index `find_by` from `joining.rs`, with `HashMap` collection
  modelled as an association list whose insert replaces prior bindings;
* the joined-note write protocol `JoinedNote::write` from `joining.rs`,
  over an explicit filesystem state.

File contents are `List Char`; the external serde_yaml codec is a parameter
(`parse`, `parseMapping`, `fromValue`, `ser`) wherever the code calls it.
-/

namespace ObsidianRust

/-- The frontmatter delimiter line, the three characters of the literal
`"---"` compared against whole lines by the code. -/
def dlm : List Char := ['-', '-', '-']

/-- Split a character sequence at every newline, keeping empty pieces:
a model of Rust `str::split('\n')`.  The result is never empty. -/
def splitNl : List Char → List (List Char)
  | [] => [[]]
  | c :: cs =>
    if c = '\n' then [] :: splitNl cs
    else
      match splitNl cs with
      | [] => [[c]]
      | l :: ls => (c :: l) :: ls

/-- Remove one trailing carriage return, as Rust `lines` does on each line
that was terminated by a newline. -/
def stripCR (l : List Char) : List Char :=
  if l.getLast? = some '\r' then l.dropLast else l

/-- Model of Rust `str::lines`: split at newlines, strip a carriage return
standing immediately before each newline, and drop the final empty piece
produced by a trailing newline (the final line ending is optional). -/
def rustLines (cs : List Char) : List (List Char) :=
  let ps := splitNl cs
  match ps.getLast? with
  | some [] => ps.dropLast.map stripCR
  | some l => ps.dropLast.map stripCR ++ [l]
  | none => []

/-- The error kinds of the library (`Error` in lib.rs). -/
inductive Err where
  | ioErr : Err
  | missingMetadata : Err
  | unclosedMetadata : Err
  | metadataErr : Err
  | malformedVault : String → Err
deriving DecidableEq, Repr

/-- Decidable equality of `Except` results, used to evaluate the model on
concrete inputs. -/
def exceptDecEq [DecidableEq ε] [DecidableEq α] : DecidableEq (Except ε α) :=
  fun x y =>
    match x, y with
    | .error a, .error b =>
      if h : a = b then .isTrue (by rw [h]) else .isFalse (fun hc => h (Except.error.inj hc))
    | .ok a, .ok b =>
      if h : a = b then .isTrue (by rw [h]) else .isFalse (fun hc => h (Except.ok.inj hc))
    | .error _, .ok _ => .isFalse (fun hc => Except.noConfusion hc)
    | .ok _, .error _ => .isFalse (fun hc => Except.noConfusion hc)

instance [DecidableEq ε] [DecidableEq α] : DecidableEq (Except ε α) := exceptDecEq

/-- Model of `NoteReference::parts::<T>` from lib.rs.  The filesystem read
result is the `file` argument (`none` models an I/O failure) and the
serde_yaml codec for the caller-chosen metadata type is the `parse`
argument (`none` models a codec parse failure).  Mirrors the code exactly:
no first line means an empty file; a first line other than the delimiter
returns the whole raw content as body; otherwise the lines strictly before
the next delimiter are joined and parsed, the parse happening before the
check that a closing delimiter exists, and the remaining lines joined by
newlines form the body. -/
def parts (parse : List Char → Option α) (file : Option (List Char)) :
    Except Err (Option α × List Char) :=
  match file with
  | none => .error .ioErr
  | some content =>
    match rustLines content with
    | [] => .ok (none, [])
    | firstLine :: rest =>
      if firstLine ≠ dlm then .ok (none, content)
      else
        match parse (List.intercalate ['\n'] (rest.takeWhile (fun l => l ≠ dlm))) with
        | none => .error .metadataErr
        | some md =>
          match rest.dropWhile (fun l => l ≠ dlm) with
          | [] => .error .unclosedMetadata
          | _ :: remaining => .ok (some md, List.intercalate ['\n'] remaining)

/-- Model of `NoteReference::metadata::<T>` from lib.rs: the metadata part
of `parts`, with an absent metadata block turned into `MissingMetadata`. -/
def metadata (parse : List Char → Option α) (file : Option (List Char)) :
    Except Err α :=
  match parts parse file with
  | .error e => .error e
  | .ok (none, _) => .error .missingMetadata
  | .ok (some m, _) => .ok m

/-- A tiny concrete codec used to instantiate the codec parameter in
witnesses: accepts exactly the nonempty all-digit lines, as the serde_yaml
codec for an integer type accepts a decimal numeral. -/
def parseNat (cs : List Char) : Option Nat :=
  if cs ≠ [] ∧ cs.all Char.isDigit then
    some (cs.foldl (fun n c => 10 * n + (c.toNat - 48)) 0)
  else none

example : rustLines "a\nb".toList = ["a".toList, "b".toList] := by decide
example : rustLines "a\r\nb\n".toList = ["a".toList, "b".toList] := by decide
example : rustLines "".toList = [] := by decide
example : parts parseNat (some "---\n7\n---\nx\ny".toList)
    = .ok (some 7, "x\ny".toList) := by decide
example : parts parseNat (some "---\n7".toList) = .error .unclosedMetadata := by
  decide
example : parts parseNat (some "---\nx".toList) = .error .metadataErr := by
  decide
example : parts parseNat (some "hello\n".toList) = .ok (none, "hello\n".toList) := by
  decide

theorem splitNl_ne_nil (cs : List Char) : splitNl cs ≠ [] := by
  cases cs with
  | nil => simp [splitNl]
  | cons c cs =>
    simp only [splitNl]
    split
    · simp
    · split <;> simp

theorem splitNl_append_newline (xs ys : List Char) :
    splitNl (xs ++ '\n' :: ys) = splitNl xs ++ splitNl ys := by
  induction xs with
  | nil => simp [splitNl]
  | cons c cs ih =>
    by_cases hc : c = '\n'
    · subst hc
      simp [splitNl, ih]
    · simp only [List.cons_append, splitNl, if_neg hc, List.append_eq]
      cases h : splitNl cs with
      | nil => exact absurd h (splitNl_ne_nil cs)
      | cons l ls =>
        rw [ih, h]
        simp

theorem splitNl_of_not_mem (cs : List Char) (h : '\n' ∉ cs) : splitNl cs = [cs] := by
  induction cs with
  | nil => rfl
  | cons c cs ih =>
    have hc : c ≠ '\n' := fun hh => h (hh ▸ List.mem_cons_self c cs)
    have hcs : '\n' ∉ cs := fun hh => h (List.mem_cons_of_mem c hh)
    simp only [splitNl, if_neg hc, ih hcs]

theorem intercalate_cons_of_ne_nil (sep a : List α) (ls : List (List α))
    (h : ls ≠ []) :
    List.intercalate sep (a :: ls) = a ++ sep ++ List.intercalate sep ls := by
  cases ls with
  | nil => exact absurd rfl h
  | cons b t => simp [List.intercalate, List.intersperse]

theorem intercalate_splitNl (cs : List Char) :
    List.intercalate ['\n'] (splitNl cs) = cs := by
  induction cs with
  | nil => rfl
  | cons c cs ih =>
    by_cases hc : c = '\n'
    · subst hc
      have h1 : splitNl ('\n' :: cs) = [] :: splitNl cs := by
        simp [splitNl]
      rw [h1, intercalate_cons_of_ne_nil _ _ _ (splitNl_ne_nil cs), ih]
      simp
    · simp only [splitNl, if_neg hc]
      cases h : splitNl cs with
      | nil => exact absurd h (splitNl_ne_nil cs)
      | cons l ls =>
        rw [h] at ih
        cases ls with
        | nil =>
          simp [List.intercalate] at ih ⊢
          simp [ih]
        | cons m ms =>
          rw [intercalate_cons_of_ne_nil _ _ _ (by simp)] at ih ⊢
          rw [← ih]
          simp

theorem mem_of_mem_splitNl (cs l : List Char) (hl : l ∈ splitNl cs)
    (c : Char) (hc : c ∈ l) : c ∈ cs := by
  induction cs generalizing l with
  | nil =>
    simp [splitNl] at hl
    subst hl
    simp at hc
  | cons d cs ih =>
    simp only [splitNl] at hl
    by_cases hd : d = '\n'
    · rw [if_pos hd] at hl
      rcases List.mem_cons.mp hl with h | h
      · subst h
        simp at hc
      · exact List.mem_cons_of_mem d (ih l h hc)
    · rw [if_neg hd] at hl
      cases hsp : splitNl cs with
      | nil => exact absurd hsp (splitNl_ne_nil cs)
      | cons m ms =>
        rw [hsp] at hl
        rcases List.mem_cons.mp hl with h | h
        · subst h
          rcases List.mem_cons.mp hc with h2 | h2
          · subst h2
            exact List.mem_cons_self _ _
          · exact List.mem_cons_of_mem d
              (ih m (hsp ▸ List.mem_cons_self m ms) h2)
        · exact List.mem_cons_of_mem d
            (ih l (hsp ▸ List.mem_cons_of_mem m h) hc)

theorem stripCR_of_not_mem (l : List Char) (h : '\r' ∉ l) : stripCR l = l := by
  rw [stripCR, if_neg]
  intro hc
  exact h (List.mem_of_getLast?_eq_some hc)

theorem rustLines_append_newline (xs ys : List Char) :
    rustLines (xs ++ '\n' :: ys) = (splitNl xs).map stripCR ++ rustLines ys := by
  rw [rustLines, rustLines, splitNl_append_newline]
  rw [List.getLast?_append_of_ne_nil _ (splitNl_ne_nil ys)]
  cases h : (splitNl ys).getLast? with
  | none => exact absurd (List.getLast?_eq_none_iff.mp h) (splitNl_ne_nil ys)
  | some l =>
    cases l with
    | nil =>
      simp only [List.dropLast_append_of_ne_nil _ (splitNl_ne_nil ys), List.map_append]
    | cons a m =>
      simp only [List.dropLast_append_of_ne_nil _ (splitNl_ne_nil ys), List.map_append,
        List.append_assoc]

theorem takeWhile_append_stop (p : List Char → Bool) (xs : List (List Char))
    (y : List Char) (ys : List (List Char)) (hx : ∀ x ∈ xs, p x = true)
    (hy : p y = false) :
    (xs ++ y :: ys).takeWhile p = xs := by
  induction xs with
  | nil => simp [List.takeWhile, hy]
  | cons a t ih =>
    have ha : p a = true := hx a (List.mem_cons_self a t)
    simp only [List.cons_append, List.takeWhile, ha, List.append_eq]
    rw [ih (fun x hx2 => hx x (List.mem_cons_of_mem a hx2))]

theorem dropWhile_append_stop (p : List Char → Bool) (xs : List (List Char))
    (y : List Char) (ys : List (List Char)) (hx : ∀ x ∈ xs, p x = true)
    (hy : p y = false) :
    (xs ++ y :: ys).dropWhile p = y :: ys := by
  induction xs with
  | nil => simp [List.dropWhile, hy]
  | cons a t ih =>
    have ha : p a = true := hx a (List.mem_cons_self a t)
    simp only [List.cons_append, List.dropWhile, ha, List.append_eq]
    exact ih (fun x hx2 => hx x (List.mem_cons_of_mem a hx2))

theorem map_stripCR_id (ls : List (List Char)) (h : ∀ l ∈ ls, '\r' ∉ l) :
    ls.map stripCR = ls := by
  induction ls with
  | nil => rfl
  | cons a t ih =>
    rw [List.map_cons, stripCR_of_not_mem a (h a (List.mem_cons_self a t)),
      ih (fun l hl => h l (List.mem_cons_of_mem a hl))]

theorem map_stripCR_splitNl (cs : List Char) (h : '\r' ∉ cs) :
    (splitNl cs).map stripCR = splitNl cs :=
  map_stripCR_id (splitNl cs)
    (fun l hl hr => h (mem_of_mem_splitNl cs l hl '\r' hr))

theorem rustLines_dlm_newline (ys : List Char) :
    rustLines (dlm ++ '\n' :: ys) = dlm :: rustLines ys := by
  rw [rustLines_append_newline, splitNl_of_not_mem dlm (by decide),
    List.map_cons, stripCR_of_not_mem dlm (by decide), List.map_nil]
  rfl

/-- Evaluation of `parts` on a file whose metadata block is opened and
closed: the block handed to the codec is exactly the lines of the middle
section, and the body is the remaining lines re-joined by newlines. -/
theorem parts_frontmatter (parse : List Char → Option α) (A B : List Char)
    (hAr : '\r' ∉ A) (hAd : dlm ∉ splitNl A) :
    parts parse (some (dlm ++ '\n' :: (A ++ '\n' :: (dlm ++ '\n' :: B))))
      = match parse A with
        | none => .error .metadataErr
        | some md => .ok (some md, List.intercalate ['\n'] (rustLines B)) := by
  have hlines : rustLines (dlm ++ '\n' :: (A ++ '\n' :: (dlm ++ '\n' :: B)))
      = dlm :: (splitNl A ++ dlm :: rustLines B) := by
    rw [rustLines_dlm_newline, rustLines_append_newline, map_stripCR_splitNl A hAr,
      rustLines_dlm_newline]
  have hx : ∀ x ∈ splitNl A, decide (x ≠ dlm) = true := by
    intro x hxm
    exact decide_eq_true (fun hEq => hAd (hEq ▸ hxm))
  have hy : decide (dlm ≠ dlm) = false := decide_eq_false (fun h => h rfl)
  simp only [parts]
  rw [hlines]
  simp only [if_neg (fun h : ¬dlm = dlm => h rfl)]
  rw [takeWhile_append_stop _ _ _ _ hx hy, dropWhile_append_stop _ _ _ _ hx hy,
    intercalate_splitNl]

/-- Evaluation of `parts` on a file whose metadata block is opened but never
closed: the codec is consulted first, so a codec failure wins over the
missing closing delimiter. -/
theorem parts_unclosed_eval (parse : List Char → Option α) (A : List Char)
    (hAd : dlm ∉ rustLines A) :
    parts parse (some (dlm ++ '\n' :: A))
      = match parse (List.intercalate ['\n'] (rustLines A)) with
        | none => .error .metadataErr
        | some _ => .error .unclosedMetadata := by
  have htake : (rustLines A).takeWhile (fun l => l ≠ dlm) = rustLines A := by
    apply List.takeWhile_eq_self_iff.mpr
    intro x hxm
    exact decide_eq_true (fun hEq => hAd (hEq ▸ hxm))
  have hdrop : (rustLines A).dropWhile (fun l => l ≠ dlm) = [] := by
    apply List.dropWhile_eq_nil_iff.mpr
    intro x hxm
    exact decide_eq_true (fun hEq => hAd (hEq ▸ hxm))
  simp only [parts]
  rw [rustLines_dlm_newline]
  simp only [if_neg (fun h : ¬dlm = dlm => h rfl)]
  rw [htake, hdrop]

/-- Evaluation of `parts` on a file whose first line exists and is not the
delimiter: the whole raw content is the body. -/
theorem parts_head_ne (parse : List Char → Option α) (content firstLine : List Char)
    (hhead : (rustLines content).head? = some firstLine) (hne : firstLine ≠ dlm) :
    parts parse (some content) = .ok (none, content) := by
  simp only [parts]
  cases h : rustLines content with
  | nil =>
    rw [h] at hhead
    simp at hhead
  | cons a rest =>
    rw [h] at hhead
    simp only [List.head?_cons, Option.some.injEq] at hhead
    subst hhead
    simp [hne]

theorem splitNl_getLast_nil (cs : List Char) (h : (splitNl cs).getLast? = some []) :
    cs = [] ∨ cs.getLast? = some '\n' := by
  induction cs with
  | nil => exact Or.inl rfl
  | cons c cs ih =>
    simp only [splitNl] at h
    by_cases hc : c = '\n'
    · subst hc
      rw [if_pos rfl] at h
      cases hsp : splitNl cs with
      | nil => exact absurd hsp (splitNl_ne_nil cs)
      | cons m ms =>
        rw [hsp, List.getLast?_cons_cons, ← hsp] at h
        rcases ih h with h2 | h2
        · subst h2
          exact Or.inr rfl
        · refine Or.inr ?_
          have hne : cs ≠ [] := by
            intro hnil
            rw [hnil] at h2
            simp at h2
          rw [List.getLast?_cons, h2]
          rfl
    · rw [if_neg hc] at h
      cases hsp : splitNl cs with
      | nil => exact absurd hsp (splitNl_ne_nil cs)
      | cons m ms =>
        rw [hsp] at h
        cases ms with
        | nil => simp at h
        | cons n ns =>
          rw [List.getLast?_cons_cons] at h
          have h3 : (splitNl cs).getLast? = some [] := by
            rw [hsp, List.getLast?_cons_cons]
            exact h
          rcases ih h3 with h2 | h2
          · subst h2
            simp [splitNl] at hsp
          · refine Or.inr ?_
            rw [List.getLast?_cons, h2]
            rfl

theorem rustLines_eq_splitNl (cs : List Char) (hne : cs ≠ [])
    (hnl : cs.getLast? ≠ some '\n') (hr : '\r' ∉ cs) :
    rustLines cs = splitNl cs := by
  rw [rustLines]
  cases h : (splitNl cs).getLast? with
  | none => exact absurd (List.getLast?_eq_none_iff.mp h) (splitNl_ne_nil cs)
  | some m =>
    cases m with
    | nil =>
      rcases splitNl_getLast_nil cs h with h2 | h2
      · exact absurd h2 hne
      · exact absurd h2 hnl
    | cons a t =>
      rw [map_stripCR_id _ (fun l hl hrm =>
        hr (mem_of_mem_splitNl cs l (List.dropLast_sublist (splitNl cs) |>.subset hl) '\r' hrm))]
      exact List.dropLast_append_getLast? _ h

theorem intercalate_rustLines (cs : List Char) (hnl : cs.getLast? ≠ some '\n')
    (hr : '\r' ∉ cs) :
    List.intercalate ['\n'] (rustLines cs) = cs := by
  by_cases hne : cs = []
  · subst hne
    rfl
  · rw [rustLines_eq_splitNl cs hne hnl hr, intercalate_splitNl]

theorem rustLines_append_final_newline (cs : List Char) (hr : '\r' ∉ cs) :
    rustLines (cs ++ ['\n']) = splitNl cs := by
  have h1 : cs ++ ['\n'] = cs ++ '\n' :: ([] : List Char) := rfl
  rw [h1, rustLines_append_newline, map_stripCR_splitNl cs hr]
  simp [rustLines, splitNl]

/-- C2: for every readable file that has a first line and whose first line is
not exactly the metadata delimiter, NoteReference::parts returns no metadata
together with the entire file content, and does not error. -/
theorem c2_no_frontmatter_whole_body (parse : List Char → Option α)
    (content firstLine : List Char)
    (hhead : (rustLines content).head? = some firstLine) (hne : firstLine ≠ dlm) :
    parts parse (some content) = .ok (none, content) :=
  parts_head_ne parse content firstLine hhead hne

theorem c2_no_frontmatter_whole_body_witness :
    (rustLines "hello\nworld\n".toList).head? = some "hello".toList
    ∧ "hello".toList ≠ dlm
    ∧ parts parseNat (some "hello\nworld\n".toList)
        = .ok (none, "hello\nworld\n".toList) :=
  ⟨by decide, by decide,
    c2_no_frontmatter_whole_body parseNat "hello\nworld\n".toList "hello".toList
      (by decide) (by decide)⟩

/-- C3 counterexample: a file consisting of the opening delimiter followed by
content the codec rejects fails with the metadata parse error, not with
UnclosedMetadata, because the code parses the collected block before checking
that the block was ever closed. -/
theorem c3_unclosed_counterexample :
    parts parseNat (some "---\nhello".toList) = .error .metadataErr
    ∧ parts parseNat (some "---\nhello".toList) ≠ .error .unclosedMetadata := by
  decide

/-- C3 (amended): for every file made of an opening delimiter followed by
content A with no closing delimiter before end of file, NoteReference::parts
fails with UnclosedMetadata provided the codec accepts the collected block
(the lines of A re-joined by newlines); if the codec rejects the block the
failure is the metadata parse error instead. -/
theorem c3_unclosed_metadata (parse : List Char → Option α) (A : List Char) (t : α)
    (hAd : dlm ∉ rustLines A)
    (hparse : parse (List.intercalate ['\n'] (rustLines A)) = some t) :
    parts parse (some (dlm ++ '\n' :: A)) = .error .unclosedMetadata := by
  rw [parts_unclosed_eval parse A hAd, hparse]

theorem c3_unclosed_metadata_witness :
    parts parseNat (some "---\n7".toList) = .error .unclosedMetadata :=
  c3_unclosed_metadata parseNat "7".toList 7 (by decide) (by decide)

/-- C4 counterexample: the file `---\n7\n---\nx\n` has the stated form with
A = `7` and B = `x\n`, and A deserializes under the codec, yet parts returns
the body `x`, not B. -/
theorem c4_body_counterexample :
    parseNat "7".toList = some 7
    ∧ parts parseNat (some "---\n7\n---\nx\n".toList) = .ok (some 7, "x".toList)
    ∧ "x".toList ≠ "x\n".toList := by
  decide

/-- C4 (amended): for every file of the form `---\nA\n---\nB` where A
contains no carriage return and no delimiter line and deserializes to the
caller-supplied type, NoteReference::parts returns Some of the parsed value
together with B, provided B contains no carriage return and does not end with
a newline; when B carries a final line terminator the returned body is B with
that terminator dropped. -/
theorem c4_frontmatter_success (parse : List Char → Option α) (A B : List Char)
    (t : α) (hAr : '\r' ∉ A) (hAd : dlm ∉ splitNl A) (hparse : parse A = some t)
    (hBr : '\r' ∉ B) (hBe : B.getLast? ≠ some '\n') :
    parts parse (some (dlm ++ '\n' :: (A ++ '\n' :: (dlm ++ '\n' :: B))))
      = .ok (some t, B) := by
  rw [parts_frontmatter parse A B hAr hAd, hparse,
    intercalate_rustLines B hBe hBr]

theorem c4_frontmatter_success_witness :
    parts parseNat (some "---\n7\n---\nx\ny".toList) = .ok (some 7, "x\ny".toList) :=
  c4_frontmatter_success parseNat "7".toList "x\ny".toList 7
    (by decide) (by decide) (by decide) (by decide) (by decide)

/-- C9: for a file whose metadata block opens and closes successfully, the
returned body is the remaining lines joined with single newlines, so a final
line terminator is not preserved: the frontmatter file ending in `B\n` yields
body B, while a file with no frontmatter ending in `C\n` yields the raw
content `C\n` itself, trailing newline included. -/
theorem c9_body_final_newline (parse : List Char → Option α)
    (A B C fl : List Char) (t : α)
    (hAr : '\r' ∉ A) (hAd : dlm ∉ splitNl A) (hparse : parse A = some t)
    (hBr : '\r' ∉ B)
    (hhead : (rustLines (C ++ ['\n'])).head? = some fl) (hne : fl ≠ dlm) :
    parts parse (some (dlm ++ '\n' :: (A ++ '\n' :: (dlm ++ '\n' :: (B ++ ['\n'])))))
      = .ok (some t, B)
    ∧ parts parse (some (C ++ ['\n'])) = .ok (none, C ++ ['\n']) := by
  constructor
  · rw [parts_frontmatter parse A (B ++ ['\n']) hAr hAd, hparse,
      rustLines_append_final_newline B hBr, intercalate_splitNl]
  · exact parts_head_ne parse (C ++ ['\n']) fl hhead hne

theorem c9_body_final_newline_witness :
    parts parseNat (some "---\n7\n---\nbody\n".toList) = .ok (some 7, "body".toList)
    ∧ parts parseNat (some "body\n".toList) = .ok (none, "body\n".toList) :=
  c9_body_final_newline parseNat "7".toList "body".toList "body".toList
    "body".toList 7 (by decide) (by decide) (by decide) (by decide)
    (by decide) (by decide)

/-- Model of a serde_yaml value as the strategies consume it: the generic
self-describing structure with field lookup by name.  Floating-point numbers
are outside the embedding; the strategies never inspect numeric contents, so
integers stand in for all numbers. -/
inductive Yaml where
  | null : Yaml
  | bool : Bool → Yaml
  | num : Int → Yaml
  | str : String → Yaml
  | seq : List Yaml → Yaml
  | mapping : List (Yaml × Yaml) → Yaml

/-- Whether a yaml value is the string `k`: the comparison behind
`Mapping::get` when indexed by a Rust string key. -/
def yamlIsStr : Yaml → String → Bool
  | .str s, k => s = k
  | _, _ => false

/-- Model of `serde_yaml::Mapping::get` with a string key: the value of the
entry whose key is the string `k`. -/
def mappingGet (entries : List (Yaml × Yaml)) (k : String) : Option Yaml :=
  (entries.find? (fun e => yamlIsStr e.1 k)).map Prod.snd

/-- Model of `serde_yaml::Value::as_str`: the string when the value is a
string, and nothing for a value of any other shape. -/
def asStr : Yaml → Option String
  | .str s => some s
  | _ => none

/-- A note handle (`NoteReference` in lib.rs): an immutable path. -/
structure NoteRef where
  path : List String
deriving DecidableEq, Repr

/-- Model of `<Branded as Strategy<K>>::extract` from joining.rs.  `readFile`
models the filesystem read at the note's path, `parseMapping` the serde_yaml
codec for `serde_yaml::Mapping`, and `fromValue` models
`serde_yaml::from_value::<K>`.  Every failure of the metadata call is turned
into `none` by the `.ok()?` in the code. -/
def brandedExtract (readFile : NoteRef → Option (List Char))
    (parseMapping : List Char → Option (List (Yaml × Yaml)))
    (fromValue : Yaml → Option K) (brandKey : String) (note : NoteRef) :
    Option (K × NoteRef) :=
  match metadata parseMapping (readFile note) with
  | .error _ => none
  | .ok yaml =>
    match mappingGet yaml brandKey with
    | none => none
    | some brand =>
      match fromValue brand with
      | none => none
      | some k => some (k, note)

/-- Model of `<TypeAndKey as Strategy<K>>::extract` from joining.rs: the
discriminator field must be a string equal to the expected note type before
the id field is looked up and converted. -/
def typeAndKeyExtract (readFile : NoteRef → Option (List Char))
    (parseMapping : List Char → Option (List (Yaml × Yaml)))
    (fromValue : Yaml → Option K) (typeKey noteType idKey : String)
    (note : NoteRef) : Option (K × NoteRef) :=
  match metadata parseMapping (readFile note) with
  | .error _ => none
  | .ok yaml =>
    match mappingGet yaml typeKey with
    | none => none
    | some tv =>
      match asStr tv with
      | none => none
      | some nt =>
        if nt ≠ noteType then none
        else
          match mappingGet yaml idKey with
          | none => none
          | some idv =>
            match fromValue idv with
            | none => none
            | some k => some (k, note)

/-- A concrete note handle for witnesses. -/
def wNote : NoteRef := NoteRef.mk ["a.md"]

/-- A concrete metadata mapping with a brand field. -/
def wMappingA : List (Yaml × Yaml) := [(.str "id", .num 7)]

/-- A concrete metadata mapping whose discriminator field holds a number. -/
def wMappingB : List (Yaml × Yaml) := [(.str "type", .num 7), (.str "id", .num 3)]

/-- A concrete mapping codec for witnesses, accepting one fixed block. -/
def wParseA (cs : List Char) : Option (List (Yaml × Yaml)) :=
  if cs = "id: 7".toList then some wMappingA else none

/-- A concrete mapping codec for witnesses, accepting one fixed block. -/
def wParseB (cs : List Char) : Option (List (Yaml × Yaml)) :=
  if cs = "type: 7".toList then some wMappingB else none

/-- A concrete model of from_value for an integer key type. -/
def wFromValue : Yaml → Option Int
  | .num n => some n
  | _ => none

/-- A concrete filesystem read with a branded note. -/
def wReadA : NoteRef → Option (List Char) := fun _ => some "---\nid: 7\n---\n".toList

/-- A concrete filesystem read with a numeric discriminator field. -/
def wReadB : NoteRef → Option (List Char) := fun _ => some "---\ntype: 7\n---\n".toList

/-- C5: for every note handle and both built-in strategies, extract never
propagates an error: whenever the underlying metadata call fails for any
reason (I/O, codec parse, missing metadata, unclosed metadata), both
strategies yield none rather than an error. -/
theorem c5_strategies_swallow_errors (readFile : NoteRef → Option (List Char))
    (parseMapping : List Char → Option (List (Yaml × Yaml)))
    (fromValue : Yaml → Option K) (brandKey typeKey noteType idKey : String)
    (note : NoteRef) (e : Err)
    (herr : metadata parseMapping (readFile note) = .error e) :
    brandedExtract readFile parseMapping fromValue brandKey note = none
    ∧ typeAndKeyExtract readFile parseMapping fromValue typeKey noteType idKey note
        = none := by
  constructor
  · simp only [brandedExtract, herr]
  · simp only [typeAndKeyExtract, herr]

theorem c5_strategies_swallow_errors_witness :
    brandedExtract (fun _ => none) wParseA wFromValue "id" wNote = none
    ∧ typeAndKeyExtract (fun _ => none) wParseA wFromValue "type" "person" "id"
        wNote = none :=
  c5_strategies_swallow_errors (fun _ => none) wParseA wFromValue "id" "type"
    "person" "id" wNote .ioErr rfl

/-- C6: TypeAndKey returns a key only when the discriminator field holds a
string exactly equal to the configured expected value, and Branded returns a
key whenever the brand field is present in the metadata and convertible to
the key type, regardless of any other field of the mapping. -/
theorem c6_discriminator_vs_branded (readFile : NoteRef → Option (List Char))
    (parseMapping : List Char → Option (List (Yaml × Yaml)))
    (fromValue : Yaml → Option K) (typeKey noteType idKey brandKey : String)
    (note : NoteRef) :
    (∀ p, typeAndKeyExtract readFile parseMapping fromValue typeKey noteType idKey
        note = some p →
      ∃ yaml tv, metadata parseMapping (readFile note) = .ok yaml
        ∧ mappingGet yaml typeKey = some tv ∧ asStr tv = some noteType)
    ∧ (∀ yaml v k, metadata parseMapping (readFile note) = .ok yaml →
        mappingGet yaml brandKey = some v → fromValue v = some k →
        brandedExtract readFile parseMapping fromValue brandKey note
          = some (k, note)) := by
  constructor
  · intro p hp
    simp only [typeAndKeyExtract] at hp
    cases hm : metadata parseMapping (readFile note) with
    | error e =>
      simp only [hm] at hp
      exact Option.noConfusion hp
    | ok yaml =>
      simp only [hm] at hp
      cases hg : mappingGet yaml typeKey with
      | none =>
        simp only [hg] at hp
        exact Option.noConfusion hp
      | some tv =>
        simp only [hg] at hp
        cases hs : asStr tv with
        | none =>
          simp only [hs] at hp
          exact Option.noConfusion hp
        | some nt =>
          simp only [hs] at hp
          by_cases hne : nt = noteType
          · subst hne
            exact ⟨yaml, tv, rfl, hg, hs⟩
          · rw [if_pos hne] at hp
            exact absurd hp (by simp)
  · intro yaml v k hm hg hf
    simp only [brandedExtract, hm, hg, hf]

theorem c6_discriminator_vs_branded_witness :
    brandedExtract wReadA wParseA wFromValue "id" wNote = some (7, wNote) :=
  (c6_discriminator_vs_branded wReadA wParseA wFromValue "type" "person" "id"
    "id" wNote).2 wMappingA (.num 7) 7 rfl rfl rfl

/-- C10: TypeAndKey::extract returns none whenever the discriminator field's
value in the metadata mapping is not a string, even if that value's textual
rendering equals the configured expected value. -/
theorem c10_nonstring_discriminator (readFile : NoteRef → Option (List Char))
    (parseMapping : List Char → Option (List (Yaml × Yaml)))
    (fromValue : Yaml → Option K) (typeKey noteType idKey : String)
    (note : NoteRef) (yaml : List (Yaml × Yaml)) (tv : Yaml)
    (hm : metadata parseMapping (readFile note) = .ok yaml)
    (hg : mappingGet yaml typeKey = some tv)
    (hs : asStr tv = none) :
    typeAndKeyExtract readFile parseMapping fromValue typeKey noteType idKey note
      = none := by
  simp only [typeAndKeyExtract, hm, hg, hs]

theorem c10_nonstring_discriminator_witness :
    typeAndKeyExtract wReadB wParseB wFromValue "type" "7" "id" wNote = none :=
  c10_nonstring_discriminator wReadB wParseB wFromValue "type" "7" "id" wNote
    wMappingB (.num 7) rfl rfl rfl

/-- Lookup in the association-list model of HashMap. -/
def hmLookup [DecidableEq K] (m : List (K × V)) (k : K) : Option V :=
  (m.find? (fun kv => kv.1 = k)).map Prod.snd

/-- Model of HashMap::insert: the new binding replaces any previous binding
of the same key. -/
def hmInsert [DecidableEq K] (m : List (K × V)) (k : K) (v : V) : List (K × V) :=
  m.filter (fun kv => kv.1 ≠ k) ++ [(k, v)]

/-- The value of the last pair bound to k in a sequence of pairs, if any. -/
def lastBinding [DecidableEq K] (ps : List (K × V)) (k : K) : Option V :=
  (ps.reverse.find? (fun kv => kv.1 = k)).map Prod.snd

/-- Model of `find_by` from joining.rs: enumeration errors are dropped,
strategy non-matches are dropped, and the surviving pairs are collected into
the map in enumeration order. -/
def findBy [DecidableEq K] (notes : List (Except Unit NoteRef))
    (extract : NoteRef → Option (K × NoteRef)) : List (K × NoteRef) :=
  ((notes.filterMap Except.toOption).filterMap extract).foldl
    (fun m kv => hmInsert m kv.1 kv.2) []

theorem findq_filter (l : List α) (p q : α → Bool)
    (h : ∀ x, p x = true → q x = true) :
    (l.filter q).find? p = l.find? p := by
  induction l with
  | nil => rfl
  | cons a t ih =>
    by_cases hq : q a = true
    · rw [List.filter_cons_of_pos hq]
      by_cases hp : p a = true
      · rw [List.find?_cons_of_pos _ hp, List.find?_cons_of_pos _ hp]
      · rw [List.find?_cons_of_neg _ hp, List.find?_cons_of_neg _ hp, ih]
    · rw [List.filter_cons_of_neg hq]
      have hp : ¬p a = true := fun hp => hq (h a hp)
      rw [List.find?_cons_of_neg _ hp, ih]

theorem hmLookup_hmInsert [DecidableEq K] (m : List (K × V)) (k : K) (v : V)
    (k2 : K) :
    hmLookup (hmInsert m k v) k2 = if k2 = k then some v else hmLookup m k2 := by
  rw [hmLookup, hmInsert, List.find?_append]
  by_cases h : k2 = k
  · subst h
    have hnone : (m.filter (fun kv => kv.1 ≠ k2)).find? (fun kv => kv.1 = k2)
        = none := by
      rw [List.find?_eq_none]
      intro x hx hpx
      have hqx := List.of_mem_filter hx
      exact (of_decide_eq_true hqx) (of_decide_eq_true hpx)
    rw [hnone]
    simp [List.find?]
  · have hsingle : ([(k, v)].find? (fun kv => kv.1 = k2)) = none := by
      rw [List.find?_eq_none]
      intro x hx hpx
      rw [List.mem_singleton] at hx
      subst hx
      exact h (of_decide_eq_true hpx).symm
    rw [hsingle, Option.or_none, if_neg h,
      findq_filter m (fun kv => kv.1 = k2) (fun kv => kv.1 ≠ k)
        (fun x hpx => decide_eq_true
          (fun hqx => h ((of_decide_eq_true hpx).symm.trans hqx)))]
    rfl

theorem hmInsert_keys_nodup [DecidableEq K] (m : List (K × V)) (k : K) (v : V)
    (h : (m.map Prod.fst).Nodup) :
    ((hmInsert m k v).map Prod.fst).Nodup := by
  rw [hmInsert, List.map_append]
  refine List.Nodup.append ?_ (List.nodup_singleton k) ?_
  · exact h.sublist (List.Sublist.map Prod.fst (List.filter_sublist m))
  · intro a ha hb
    simp only [List.map_cons, List.map_nil, List.mem_singleton] at hb
    subst hb
    rcases List.mem_map.mp ha with ⟨x, hx, hfst⟩
    have hq := List.of_mem_filter hx
    exact (of_decide_eq_true hq) hfst

theorem collect_keys_nodup [DecidableEq K] (ps acc : List (K × V))
    (h : (acc.map Prod.fst).Nodup) :
    ((ps.foldl (fun m kv => hmInsert m kv.1 kv.2) acc).map Prod.fst).Nodup := by
  induction ps generalizing acc with
  | nil => exact h
  | cons a t ih => exact ih _ (hmInsert_keys_nodup acc a.1 a.2 h)

theorem lastBinding_cons [DecidableEq K] (a : K × V) (t : List (K × V)) (k : K) :
    lastBinding (a :: t) k
      = match lastBinding t k with
        | some v => some v
        | none => if a.1 = k then some a.2 else none := by
  rw [lastBinding, lastBinding, List.reverse_cons, List.find?_append]
  cases hf : t.reverse.find? (fun kv => kv.1 = k) with
  | some kv => simp
  | none =>
    simp only [Option.none_or, Option.map_none']
    by_cases ha : a.1 = k
    · simp [List.find?, ha]
    · simp [List.find?, ha]

theorem collect_lookup [DecidableEq K] (ps acc : List (K × V)) (k : K) :
    hmLookup (ps.foldl (fun m kv => hmInsert m kv.1 kv.2) acc) k
      = match lastBinding ps k with
        | some v => some v
        | none => hmLookup acc k := by
  induction ps generalizing acc with
  | nil => rfl
  | cons a t ih =>
    rw [List.foldl_cons, ih, lastBinding_cons]
    cases hl : lastBinding t k with
    | some v => rfl
    | none =>
      rw [hmLookup_hmInsert]
      by_cases ha : a.1 = k
      · rw [if_pos ha, if_pos ha.symm]
      · rw [if_neg ha, if_neg (fun hd => ha hd.symm)]

/-- C8: in the mapping returned by find_by, every key is bound to exactly one
note handle, and the binding of each key is the one materialized last in
enumeration order among the extracted pairs (last write wins). -/
theorem c8_find_by_last_write_wins [DecidableEq K]
    (notes : List (Except Unit NoteRef))
    (extract : NoteRef → Option (K × NoteRef)) :
    ((findBy notes extract).map Prod.fst).Nodup
    ∧ ∀ k, hmLookup (findBy notes extract) k
        = lastBinding ((notes.filterMap Except.toOption).filterMap extract) k := by
  constructor
  · exact collect_keys_nodup _ [] List.nodup_nil
  · intro k
    rw [findBy, collect_lookup]
    cases lastBinding ((notes.filterMap Except.toOption).filterMap extract) k with
    | some v => rfl
    | none => rfl

/-- The outcome of a joined-note write (`WriteOutcome` in joining.rs). -/
inductive WriteOutcome where
  | created : WriteOutcome
  | updated : WriteOutcome
deriving DecidableEq, Repr

/-- The filesystem state touched by `JoinedNote::write`: the known
directories and an association of file paths to contents.  Paths are lists
of segments. -/
structure FS where
  dirs : List (List String)
  files : List (List String × List Char)
deriving DecidableEq, Repr

/-- The empty filesystem, used by witnesses. -/
def fsEmpty : FS := FS.mk [] []

/-- Model of `Path::parent` on a segment list: nothing for the empty path,
otherwise the path without its final segment; for a bare filename the result
is the empty path, the model of Rust's `Some("")`. -/
def pathParent : List String → Option (List String)
  | [] => none
  | p => some p.dropLast

/-- The parent filter of `JoinedNote::write`: `.parent().filter(p != "")`,
rejecting both a missing parent and the empty parent. -/
def meaningfulParent (p : List String) : Option (List String) :=
  match pathParent p with
  | none => none
  | some q => if q = [] then none else some q

/-- Model of `std::fs::create_dir_all`: records the directory, succeeding
also when it already exists. -/
def createDirAll (fs : FS) (d : List String) : FS :=
  if d ∈ fs.dirs then fs else FS.mk (d :: fs.dirs) fs.files

/-- Model of `std::fs::write`: truncate and replace the file at the path. -/
def fsWrite (fs : FS) (p : List String) (c : List Char) : FS :=
  FS.mk fs.dirs ((p, c) :: fs.files.filter (fun f => f.1 ≠ p))

/-- The serialized note text written by both write paths:
the delimiter line, the codec output, the delimiter line, the body. -/
def renderNote (metaText contents : List Char) : List Char :=
  dlm ++ '\n' :: (metaText ++ (dlm ++ '\n' :: contents))

/-- Model of `JoinedNote::write` from joining.rs.  `ser` is the serde_yaml
serialization of the metadata (`none` models a codec failure); the result is
returned together with the filesystem as the call leaves it, so an error
exhibits exactly the mutations performed before the early return. -/
def writeJoined (ser : Option (List Char)) (defaultPath : List String)
    (contents : List Char) (existing : Option (List String)) (fs : FS) :
    Except Err WriteOutcome × FS :=
  match existing with
  | some p =>
    match ser with
    | none => (.error .metadataErr, fs)
    | some s => (.ok .updated, fsWrite fs p (renderNote s contents))
  | none =>
    match meaningfulParent defaultPath with
    | none =>
      (.error (.malformedVault "Invalid note location, lacks meaningful parent"), fs)
    | some parent =>
      match ser with
      | none => (.error .metadataErr, createDirAll fs parent)
      | some s =>
        (.ok .created, fsWrite (createDirAll fs parent) defaultPath (renderNote s contents))

/-- C1: whenever serialization succeeds, a write with an existing path
targets exactly that path and reports Updated, and a write without one
targets default_path and reports Created (creating the default path's
parent directory). -/
theorem c1_write_outcome_law (s : List Char) (defaultPath : List String)
    (contents : List Char) (fs : FS) (p parent : List String)
    (hpar : meaningfulParent defaultPath = some parent) :
    writeJoined (some s) defaultPath contents (some p) fs
      = (.ok .updated, fsWrite fs p (renderNote s contents))
    ∧ writeJoined (some s) defaultPath contents none fs
      = (.ok .created,
          fsWrite (createDirAll fs parent) defaultPath (renderNote s contents)) := by
  constructor
  · rfl
  · simp only [writeJoined, hpar]

theorem c1_write_outcome_law_witness :
    writeJoined (some "id: 7\n".toList) ["people", "7.md"] "body".toList
        (some ["a.md"]) fsEmpty
      = (.ok .updated, fsWrite fsEmpty ["a.md"]
          (renderNote "id: 7\n".toList "body".toList))
    ∧ writeJoined (some "id: 7\n".toList) ["people", "7.md"] "body".toList
        none fsEmpty
      = (.ok .created, fsWrite (createDirAll fsEmpty ["people"]) ["people", "7.md"]
          (renderNote "id: 7\n".toList "body".toList)) :=
  c1_write_outcome_law "id: 7\n".toList ["people", "7.md"] "body".toList fsEmpty
    ["a.md"] ["people"] rfl

/-- C7: a write with no existing path whose default_path is a bare filename
with no parent directory segment fails with MalformedVault and performs no
filesystem mutation: no directory is created and no file is written. -/
theorem c7_write_bare_filename_no_mutation (ser : Option (List Char))
    (f : String) (contents : List Char) (fs : FS) :
    writeJoined ser [f] contents none fs
      = (.error (.malformedVault "Invalid note location, lacks meaningful parent"),
          fs) := by
  rfl

end ObsidianRust
